import Mathlib

/-!
Shallow embedding of the VQE tutorial notebook
(src/fall2019/07vqe/VQE-tutorial-fall2019.ipynb).

Python floats that only flow through the program as opaque parameters
(gate angles, weights, expectation values) are modelled as rationals;
the one irrational constant np.pi is modelled by its exact IEEE-754
double value, which is a rational.  Measurement-count dictionaries
returned by the qiskit backend are modelled as association lists from
bitstrings (lists of booleans indexed by classical bit, with false
standing for the character 0) to occurrence counts.  Python exceptions
are modelled with Except.
-/

set_option autoImplicit false

namespace VQE

/-- One circuit instruction, as recorded by the qiskit circuit object:
an operation name, real parameters, the addressed qubit indices and the
addressed classical-bit indices. -/
structure Gate where
  name : String
  params : List ℚ
  qubits : List Nat
  clbits : List Nat
deriving DecidableEq, Repr

/-- A quantum circuit: the sizes of its quantum registers, the sizes of
its classical registers, and the instruction list in append order.  The
notebook only ever builds circuits with a single quantum and a single
classical register. -/
structure Circuit where
  qregs : List Nat
  cregs : List Nat
  gates : List Gate
deriving DecidableEq, Repr

/-- circuit.copy() returns an independent circuit with the same data. -/
def Circuit.copy (c : Circuit) : Circuit := c

/-- Append one instruction to the instruction list. -/
def Circuit.addGate (c : Circuit) (g : Gate) : Circuit :=
  { c with gates := c.gates ++ [g] }

/-- circ.x(q) -/
def Circuit.x (c : Circuit) (q : Nat) : Circuit :=
  c.addGate ⟨"x", [], [q], []⟩

/-- circ.h(q) -/
def Circuit.h (c : Circuit) (q : Nat) : Circuit :=
  c.addGate ⟨"h", [], [q], []⟩

/-- circ.s(q) -/
def Circuit.s (c : Circuit) (q : Nat) : Circuit :=
  c.addGate ⟨"s", [], [q], []⟩

/-- circ.rx(angle, q) -/
def Circuit.rx (c : Circuit) (angle : ℚ) (q : Nat) : Circuit :=
  c.addGate ⟨"rx", [angle], [q], []⟩

/-- circ.ry(angle, q) -/
def Circuit.ry (c : Circuit) (angle : ℚ) (q : Nat) : Circuit :=
  c.addGate ⟨"ry", [angle], [q], []⟩

/-- circ.rz(angle, q) -/
def Circuit.rz (c : Circuit) (angle : ℚ) (q : Nat) : Circuit :=
  c.addGate ⟨"rz", [angle], [q], []⟩

/-- circ.cx(control, target) -/
def Circuit.cx (c : Circuit) (ctrl tgt : Nat) : Circuit :=
  c.addGate ⟨"cx", [], [ctrl, tgt], []⟩

/-- circ.measure(q, cl) -/
def Circuit.measure (c : Circuit) (q cl : Nat) : Circuit :=
  c.addGate ⟨"measure", [], [q], [cl]⟩

/-- The exact rational value of the IEEE-754 double np.pi. -/
def npPi : ℚ := 884279719003555 / 281474976710656

/-- Translation of VQE_circuit from the notebook: a 2-qubit, 2-clbit
circuit with the gate sequence x, rx(-pi/2), ry(pi/2), cx, rz(theta),
cx, rx(pi/2), ry(-pi/2). -/
def VQE_circuit (theta : ℚ) : Circuit :=
  let circ : Circuit := ⟨[2], [2], []⟩
  ((((((((circ.x 0).rx (-(npPi / 2)) 0).ry (npPi / 2) 1).cx 1 0).rz theta
      0).cx 1 0).rx (npPi / 2) 0).ry (-(npPi / 2)) 1)

/-- The ValueError and IndexError exits of the notebook functions. -/
inductive VQEError where
  /-- Circuit should have only one quantum register. -/
  | qregCount
  /-- Circuit should have only one classical register. -/
  | cregCount
  /-- Circuit has nqubits qubits but pauli_string has plen operators. -/
  | lengthMismatch (nqubits plen : Nat)
  /-- An invalid Pauli string key, should be I, X, Y or Z. -/
  | invalidSymbol (c : Char)
  /-- Indexing qreg past its size raises IndexError. -/
  | qubitIndex (q : Nat)
  /-- Indexing creg past its size raises IndexError. -/
  | clbitIndex (q : Nat)
  /-- Args weights and paulis must have the same length. -/
  | costLengthMismatch
deriving DecidableEq, Repr

/-- The whitespace characters removed by the Python str.strip method
(ASCII range; the last two are vertical tab and form feed). -/
def isPyWhite (c : Char) : Bool :=
  c == ' ' || c == '\t' || c == '\n' || c == '\r' ||
    c == Char.ofNat 11 || c == Char.ofNat 12

/-- Python str.strip: drop whitespace from both ends. -/
def stripList (l : List Char) : List Char :=
  ((l.dropWhile isPyWhite).reverse.dropWhile isPyWhite).reverse

/-- bitstring.count of the character 0, on the boolean bitstring. -/
def countFalse (bs : List Bool) : Nat :=
  bs.countP (fun b => b == false)

/-- The body of the for loop of expectation over
enumerate(pauli_string): threads the temp circuit and the ident list,
and raises on an invalid symbol or an out-of-range register index.
nq and ncb are the sizes of the single quantum and classical register;
the loop reads qreg[qubit] and creg[qubit], each of which raises
IndexError when qubit is out of range. -/
def pauliLoop (nq ncb : Nat) :
    List (Nat × Char) → Circuit → List Nat →
      Except VQEError (Circuit × List Nat)
  | [], temp, ident => .ok (temp, ident)
  | (qubit, pauli) :: rest, temp, ident =>
    if pauli = 'I' then
      pauliLoop nq ncb rest temp (ident ++ [1])
    else if pauli = 'X' then
      if nq ≤ qubit then .error (.qubitIndex qubit)
      else if ncb ≤ qubit then .error (.clbitIndex qubit)
      else pauliLoop nq ncb rest ((temp.h qubit).measure qubit qubit)
        (ident ++ [0])
    else if pauli = 'Y' then
      if nq ≤ qubit then .error (.qubitIndex qubit)
      else if ncb ≤ qubit then .error (.clbitIndex qubit)
      else pauliLoop nq ncb rest
        (((temp.s qubit).h qubit).measure qubit qubit) (ident ++ [0])
    else if pauli = 'Z' then
      if nq ≤ qubit then .error (.qubitIndex qubit)
      else if ncb ≤ qubit then .error (.clbitIndex qubit)
      else pauliLoop nq ncb rest (temp.measure qubit qubit)
        (ident ++ [0])
    else .error (.invalidSymbol pauli)

/-- The observable outcome of one call to expectation: the returned
value or raised error, the circuit object of the caller after the call,
and whether the measurement backend was invoked. -/
structure ExpRun where
  result : Except VQEError ℚ
  caller : Circuit
  backendCalled : Bool
deriving Repr

/-- Translation of expectation from the notebook, with the state of the
caller circuit object and the backend invocation made explicit.  The
backend argument models qis.execute followed by get_counts: from the
submitted circuit and the shot count it yields the counts dictionary.
All gate and measure calls of the source address temp, the copy of the
input circuit. -/
def expectationSt (circuit : Circuit) (pauli_string : String)
    (backend : Circuit → Nat → List (List Bool × Nat)) (shots : Nat) :
    ExpRun :=
  let temp := circuit.copy
  if circuit.qregs.length ≠ 1 then ⟨.error .qregCount, circuit, false⟩
  else if circuit.cregs.length ≠ 1 then
    ⟨.error .cregCount, circuit, false⟩
  else
    let nqubits := circuit.qregs.headD 0
    let ncbits := circuit.cregs.headD 0
    let pl := stripList (pauli_string.toList.map Char.toUpper)
    if pl.length ≠ nqubits then
      ⟨.error (.lengthMismatch nqubits pl.length), circuit, false⟩
    else
      match pauliLoop nqubits ncbits pl.enum temp [] with
      | .error e => ⟨.error e, circuit, false⟩
      | .ok (temp2, ident) =>
        if ident.all (fun i => i != 0) then ⟨.ok 1, circuit, false⟩
        else
          let counts := backend temp2 shots
          let val := counts.foldl
            (fun acc bc =>
              acc + (-1 : ℚ) ^ countFalse bc.1 * (bc.2 : ℚ)) 0
          ⟨.ok (val / (shots : ℚ)), circuit, true⟩

/-- The return value (or raised error) of expectation. -/
def expectation (circuit : Circuit) (pauli_string : String)
    (backend : Circuit → Nat → List (List Bool × Nat)) (shots : Nat) :
    Except VQEError ℚ :=
  (expectationSt circuit pauli_string backend shots).result

/-- Modelled from the spec: the summation loop of cost, whose body the
notebook leaves as a student exercise.  Section 4.3 of the spec:
scalar energy = sum over i of weight[i] times
expectation(circuit, pauli[i]); a raised error propagates. -/
def costSum (circuit : Circuit)
    (backend : Circuit → Nat → List (List Bool × Nat)) (shots : Nat) :
    List (ℚ × String) → ℚ → Except VQEError ℚ
  | [], acc => .ok acc
  | (w, p) :: rest, acc =>
    match expectation circuit p backend shots with
    | .error e => .error e
    | .ok e => costSum circuit backend shots rest (acc + w * e)

/-- Translation of cost from the notebook.  The length validation is
verbatim source code; the summation after it is the student exercise
and is Modelled from the spec (see costSum). -/
def cost (circuit : Circuit) (weights : List ℚ) (paulis : List String)
    (backend : Circuit → Nat → List (List Bool × Nat)) (shots : Nat) :
    Except VQEError ℚ :=
  if weights.length ≠ paulis.length then .error .costLengthMismatch
  else costSum circuit backend shots (weights.zip paulis) 0

/-- Translation of obj from the notebook cell that defines the
per-bond-length objective.  The globals weights and H2_paulis are
passed as parameters.  Note that the source evaluates
cost(VQE_circuit(0), weights, H2_paulis): the argument theta is
received but never used. -/
def obj (theta : ℚ) (weights : List ℚ) (H2_paulis : List String)
    (backend : Circuit → Nat → List (List Bool × Nat)) (shots : Nat) :
    Except VQEError ℚ :=
  let _ := theta
  cost (VQE_circuit 0) weights H2_paulis backend shots

/-- Translation of the outer sweep loop: for r in range(len(radii)),
minimize the objective
fun theta => cost (VQE_circuit theta) (coeffs r) H2_paulis
and append the found minimum to the energies list.  minimizeFun
abstracts scipy minimize with x0=[0] and method Powell, projected to
the optimal value opt.fun. -/
def sweepEnergies (radii : List ℚ) (coeffs : Nat → List ℚ)
    (H2_paulis : List String)
    (minimizeFun : (ℚ → Except VQEError ℚ) → ℚ)
    (backend : Circuit → Nat → List (List Bool × Nat)) (shots : Nat) :
    List ℚ :=
  (List.range radii.length).foldl
    (fun energies r =>
      energies ++
        [minimizeFun
          (fun theta =>
            cost (VQE_circuit theta) (coeffs r) H2_paulis backend
              shots)]) []

/-- Modelled from the spec: the positions of the measured
(non-identity) symbols of a processed Pauli string. -/
def measuredPositions (pl : List Char) : List Nat :=
  (pl.enum.filter (fun ic => ic.2 != 'I')).map Prod.fst

/-- Modelled from the spec: the number of 0 bits of the bitstring at
the given positions. -/
def countZerosAt (mpos : List Nat) (bs : List Bool) : Nat :=
  (mpos.filter (fun j => bs.getD j true == false)).length

/-- Modelled from the spec: the sign of one measured bitstring, read as
the parity of the bitstring restricted to the measured positions. -/
def restrictedSign (mpos : List Nat) (bs : List Bool) : ℚ :=
  (-1) ^ countZerosAt mpos bs

/-- Modelled from the spec: the empirical average over shots of the
restricted-parity signs of the observed bitstrings. -/
def restrictedAverage (mpos : List Nat)
    (counts : List (List Bool × Nat)) (shots : Nat) : ℚ :=
  (counts.foldl
    (fun acc bc => acc + restrictedSign mpos bc.1 * (bc.2 : ℚ)) 0) /
    (shots : ℚ)

/-- A bare 2-qubit, 2-clbit circuit with no gates, as produced by
qis.QuantumCircuit on a size-2 quantum and classical register. -/
def base2 : Circuit := ⟨[2], [2], []⟩

/-- A deterministic stand-in backend: every shot observes the
bitstring 00. -/
def backend00 : Circuit → Nat → List (List Bool × Nat) :=
  fun _ s => [([false, false], s)]

/-- Whether a character is one of the four Pauli keys accepted by the
loop of expectation. -/
def isPauliChar (c : Char) : Bool :=
  c == 'I' || c == 'X' || c == 'Y' || c == 'Z'

/-- A stand-in scalar minimizer that always reports the value 7. -/
def constMin : (ℚ → Except VQEError ℚ) → ℚ := fun _ => 7

end VQE

namespace VQE

/-! ### Helper lemmas -/

theorem dropWhile_eq_self_of_all_neg {α : Type} (p : α → Bool) :
    ∀ l : List α, (∀ c ∈ l, p c = false) → l.dropWhile p = l
  | [], _ => rfl
  | a :: t, h => by
    rw [List.dropWhile_cons_of_neg]
    simp [h a (List.mem_cons_self a t)]

theorem stripList_eq_self (l : List Char)
    (h : ∀ c ∈ l, isPyWhite c = false) : stripList l = l := by
  unfold stripList
  rw [dropWhile_eq_self_of_all_neg _ l h,
    dropWhile_eq_self_of_all_neg _ l.reverse
      (fun c hc => h c (List.mem_reverse.mp hc)),
    List.reverse_reverse]

theorem pauliLoop_all_I (nq ncb : Nat) :
    ∀ (l : List (Nat × Char)) (temp : Circuit) (ident : List Nat),
      (∀ ic ∈ l, ic.2 = 'I') →
      pauliLoop nq ncb l temp ident =
        .ok (temp, ident ++ List.replicate l.length 1)
  | [], temp, ident, _ => by simp [pauliLoop]
  | (q, ch) :: t, temp, ident, h => by
    have hch : ch = 'I' := h (q, ch) (List.mem_cons_self _ _)
    rw [List.length_cons, List.replicate_succ]
    unfold pauliLoop
    rw [if_pos hch,
      pauliLoop_all_I nq ncb t temp (ident ++ [1])
        (fun ic hic => h ic (List.mem_cons_of_mem _ hic)),
      List.append_assoc]
    rfl

theorem pauliLoop_valid (nq ncb : Nat) :
    ∀ (l : List (Nat × Char)) (temp : Circuit) (ident : List Nat),
      (∀ ic ∈ l, isPauliChar ic.2 = true) →
      (∀ ic ∈ l, ic.1 < nq) → (∀ ic ∈ l, ic.1 < ncb) →
      ∃ temp2, pauliLoop nq ncb l temp ident =
        .ok (temp2,
          ident ++ l.map (fun ic => if ic.2 = 'I' then 1 else 0))
  | [], temp, ident, _, _, _ => ⟨temp, by simp [pauliLoop]⟩
  | (q, ch) :: t, temp, ident, hv, hq, hc => by
    have hch : isPauliChar ch = true := hv (q, ch) (List.mem_cons_self _ _)
    have hqq : q < nq := hq (q, ch) (List.mem_cons_self _ _)
    have hcq : q < ncb := hc (q, ch) (List.mem_cons_self _ _)
    have hv2 := fun ic hic => hv ic (List.mem_cons_of_mem _ hic)
    have hq2 := fun ic hic => hq ic (List.mem_cons_of_mem _ hic)
    have hc2 := fun ic hic => hc ic (List.mem_cons_of_mem _ hic)
    rw [List.map_cons]
    simp only [isPauliChar, Bool.or_eq_true, beq_iff_eq] at hch
    unfold pauliLoop
    rcases hch with ((h1 | h1) | h1) | h1 <;> subst h1
    · obtain ⟨t2, ht2⟩ := pauliLoop_valid nq ncb t temp (ident ++ [1]) hv2 hq2 hc2
      refine ⟨t2, ?_⟩
      rw [if_pos (rfl : ('I' : Char) = 'I'), ht2, List.append_assoc]
      rfl
    · obtain ⟨t2, ht2⟩ := pauliLoop_valid nq ncb t
        ((temp.h q).measure q q) (ident ++ [0]) hv2 hq2 hc2
      refine ⟨t2, ?_⟩
      rw [if_neg (by decide : ¬ ('X' : Char) = 'I'),
        if_pos (rfl : ('X' : Char) = 'X'), if_neg (Nat.not_le.mpr hqq),
        if_neg (Nat.not_le.mpr hcq), ht2, List.append_assoc]
      rfl
    · obtain ⟨t2, ht2⟩ := pauliLoop_valid nq ncb t
        (((temp.s q).h q).measure q q) (ident ++ [0]) hv2 hq2 hc2
      refine ⟨t2, ?_⟩
      rw [if_neg (by decide : ¬ ('Y' : Char) = 'I'),
        if_neg (by decide : ¬ ('Y' : Char) = 'X'),
        if_pos (rfl : ('Y' : Char) = 'Y'), if_neg (Nat.not_le.mpr hqq),
        if_neg (Nat.not_le.mpr hcq), ht2, List.append_assoc]
      rfl
    · obtain ⟨t2, ht2⟩ := pauliLoop_valid nq ncb t
        (temp.measure q q) (ident ++ [0]) hv2 hq2 hc2
      refine ⟨t2, ?_⟩
      rw [if_neg (by decide : ¬ ('Z' : Char) = 'I'),
        if_neg (by decide : ¬ ('Z' : Char) = 'X'),
        if_neg (by decide : ¬ ('Z' : Char) = 'Y'),
        if_pos (rfl : ('Z' : Char) = 'Z'), if_neg (Nat.not_le.mpr hqq),
        if_neg (Nat.not_le.mpr hcq), ht2, List.append_assoc]
      rfl

theorem pauliLoop_invalid (nq ncb : Nat) :
    ∀ (l : List (Nat × Char)) (temp : Circuit) (ident : List Nat),
      (∀ ic ∈ l, ic.1 < nq) → (∀ ic ∈ l, ic.1 < ncb) →
      (∃ ic ∈ l, isPauliChar ic.2 = false) →
      ∃ ch, isPauliChar ch = false ∧
        pauliLoop nq ncb l temp ident = .error (.invalidSymbol ch)
  | [], _, _, _, _, hbad => by simp at hbad
  | (q, ch) :: t, temp, ident, hq, hc, hbad => by
    have hqq : q < nq := hq (q, ch) (List.mem_cons_self _ _)
    have hcq : q < ncb := hc (q, ch) (List.mem_cons_self _ _)
    have hq2 := fun ic hic => hq ic (List.mem_cons_of_mem _ hic)
    have hc2 := fun ic hic => hc ic (List.mem_cons_of_mem _ hic)
    by_cases hch : isPauliChar ch = true
    · have hbt : ∃ ic ∈ t, isPauliChar ic.2 = false := by
        rcases hbad with ⟨ic, hic, hicb⟩
        rcases List.mem_cons.mp hic with h | h
        · rw [h] at hicb; simp only at hicb; rw [hicb] at hch; cases hch
        · exact ⟨ic, h, hicb⟩
      simp only [isPauliChar, Bool.or_eq_true, beq_iff_eq] at hch
      unfold pauliLoop
      rcases hch with ((h1 | h1) | h1) | h1 <;> subst h1
      · rw [if_pos (rfl : ('I' : Char) = 'I')]
        exact pauliLoop_invalid nq ncb t temp (ident ++ [1]) hq2 hc2 hbt
      · rw [if_neg (by decide : ¬ ('X' : Char) = 'I'),
          if_pos (rfl : ('X' : Char) = 'X'), if_neg (Nat.not_le.mpr hqq),
          if_neg (Nat.not_le.mpr hcq)]
        exact pauliLoop_invalid nq ncb t ((temp.h q).measure q q)
          (ident ++ [0]) hq2 hc2 hbt
      · rw [if_neg (by decide : ¬ ('Y' : Char) = 'I'),
          if_neg (by decide : ¬ ('Y' : Char) = 'X'),
          if_pos (rfl : ('Y' : Char) = 'Y'), if_neg (Nat.not_le.mpr hqq),
          if_neg (Nat.not_le.mpr hcq)]
        exact pauliLoop_invalid nq ncb t (((temp.s q).h q).measure q q)
          (ident ++ [0]) hq2 hc2 hbt
      · rw [if_neg (by decide : ¬ ('Z' : Char) = 'I'),
          if_neg (by decide : ¬ ('Z' : Char) = 'X'),
          if_neg (by decide : ¬ ('Z' : Char) = 'Y'),
          if_pos (rfl : ('Z' : Char) = 'Z'), if_neg (Nat.not_le.mpr hqq),
          if_neg (Nat.not_le.mpr hcq)]
        exact pauliLoop_invalid nq ncb t (temp.measure q q)
          (ident ++ [0]) hq2 hc2 hbt
    · refine ⟨ch, by simpa using hch, ?_⟩
      have h1 : ch ≠ 'I' := by
        intro h; rw [h] at hch; exact hch (by decide)
      have h2 : ch ≠ 'X' := by
        intro h; rw [h] at hch; exact hch (by decide)
      have h3 : ch ≠ 'Y' := by
        intro h; rw [h] at hch; exact hch (by decide)
      have h4 : ch ≠ 'Z' := by
        intro h; rw [h] at hch; exact hch (by decide)
      unfold pauliLoop
      rw [if_neg h1, if_neg h2, if_neg h3, if_neg h4]

end VQE

namespace VQE

theorem foldl_append_singleton_eq_map {α β : Type} (f : α → β) :
    ∀ (l : List α) (acc : List β),
      l.foldl (fun es x => es ++ [f x]) acc = acc ++ l.map f
  | [], acc => by simp
  | a :: t, acc => by
    rw [List.foldl_cons, foldl_append_singleton_eq_map f t (acc ++ [f a]),
      List.map_cons, List.append_assoc]
    rfl

theorem costSum_spec (c : Circuit)
    (b : Circuit → Nat → List (List Bool × Nat)) (s : Nat) :
    ∀ (ws : List ℚ) (pls : List String) (es : List ℚ) (acc : ℚ),
      List.Forall₂ (fun p e => expectation c p b s = .ok e) pls es →
      costSum c b s (ws.zip pls) acc =
        .ok (acc + (List.zipWith (fun w e => w * e) ws es).sum)
  | [], _, es, acc, _ => by simp [costSum]
  | w :: wt, [], es, acc, hf => by
    cases hf
    simp [costSum]
  | w :: wt, p :: pt, es, acc, hf => by
    cases es with
    | nil => cases hf
    | cons e et =>
      cases hf with
      | cons he ht =>
        rw [List.zip_cons_cons, List.zipWith_cons_cons, List.sum_cons]
        show costSum c b s ((w, p) :: wt.zip pt) acc = _
        unfold costSum
        rw [he]
        show costSum c b s (wt.zip pt) (acc + w * e) = _
        rw [costSum_spec c b s wt pt et (acc + w * e) ht, add_assoc]

theorem expectationSt_run (c : Circuit) (n m : Nat) (ps : String)
    (b : Circuit → Nat → List (List Bool × Nat)) (s : Nat)
    (pl : List Char) (temp2 : Circuit) (ident : List Nat)
    (hq : c.qregs = [n]) (hc : c.cregs = [m])
    (hpl : stripList (ps.toList.map Char.toUpper) = pl)
    (hlen : pl.length = n)
    (hloop : pauliLoop n m pl.enum c [] = .ok (temp2, ident))
    (hnotall : ident.all (fun i => i != 0) = false) :
    expectationSt c ps b s =
      ⟨.ok (((b temp2 s).foldl
        (fun acc bc => acc + (-1 : ℚ) ^ countFalse bc.1 * (bc.2 : ℚ))
        0) / (s : ℚ)), c, true⟩ := by
  unfold expectationSt
  dsimp only
  rw [hq, hc]
  simp only [List.headD, List.length_cons, List.length_nil, Nat.zero_add,
    hpl, hlen, Circuit.copy]
  rw [if_neg (by norm_num), if_neg (by norm_num), if_neg (by norm_num),
    hloop]
  dsimp only
  rw [hnotall]
  norm_num

theorem expectationSt_identity (c : Circuit) (n m : Nat) (ps : String)
    (b : Circuit → Nat → List (List Bool × Nat)) (s : Nat)
    (pl : List Char) (temp2 : Circuit) (ident : List Nat)
    (hq : c.qregs = [n]) (hc : c.cregs = [m])
    (hpl : stripList (ps.toList.map Char.toUpper) = pl)
    (hlen : pl.length = n)
    (hloop : pauliLoop n m pl.enum c [] = .ok (temp2, ident))
    (hall : ident.all (fun i => i != 0) = true) :
    expectationSt c ps b s = ⟨.ok 1, c, false⟩ := by
  unfold expectationSt
  dsimp only
  rw [hq, hc]
  simp only [List.headD, List.length_cons, List.length_nil, Nat.zero_add,
    hpl, hlen, Circuit.copy]
  rw [if_neg (by norm_num), if_neg (by norm_num), if_neg (by norm_num),
    hloop]
  dsimp only
  rw [hall]
  norm_num

theorem expectationSt_badlen (c : Circuit) (n m : Nat) (ps : String)
    (b : Circuit → Nat → List (List Bool × Nat)) (s : Nat)
    (hq : c.qregs = [n]) (hc : c.cregs = [m])
    (hlen : (stripList (ps.toList.map Char.toUpper)).length ≠ n) :
    expectationSt c ps b s =
      ⟨.error (.lengthMismatch n
        (stripList (ps.toList.map Char.toUpper)).length), c, false⟩ := by
  unfold expectationSt
  dsimp only
  rw [hq, hc]
  simp only [List.headD, List.length_cons, List.length_nil, Nat.zero_add,
    Circuit.copy]
  rw [if_neg (by norm_num), if_neg (by norm_num), if_pos hlen]

theorem expectationSt_loop_error (c : Circuit) (n m : Nat) (ps : String)
    (b : Circuit → Nat → List (List Bool × Nat)) (s : Nat)
    (pl : List Char) (e : VQEError)
    (hq : c.qregs = [n]) (hc : c.cregs = [m])
    (hpl : stripList (ps.toList.map Char.toUpper) = pl)
    (hlen : pl.length = n)
    (hloop : pauliLoop n m pl.enum c [] = .error e) :
    expectationSt c ps b s = ⟨.error e, c, false⟩ := by
  unfold expectationSt
  dsimp only
  rw [hq, hc]
  simp only [List.headD, List.length_cons, List.length_nil, Nat.zero_add,
    hpl, hlen, Circuit.copy]
  rw [if_neg (by norm_num), if_neg (by norm_num), if_neg (by norm_num),
    hloop]

theorem expectation_ok_cases (c : Circuit) (ps : String)
    (b : Circuit → Nat → List (List Bool × Nat)) (s : Nat) (v : ℚ)
    (hok : expectation c ps b s = .ok v) :
    v = 1 ∨ ∃ temp2, v =
      ((b temp2 s).foldl
        (fun acc bc => acc + (-1 : ℚ) ^ countFalse bc.1 * (bc.2 : ℚ))
        0) / (s : ℚ) := by
  unfold expectation expectationSt at hok
  dsimp only at hok
  split at hok
  · simp at hok
  split at hok
  · simp at hok
  split at hok
  · simp at hok
  split at hok
  · simp at hok
  split at hok
  · dsimp only at hok
    rw [Except.ok.injEq] at hok
    exact Or.inl hok.symm
  · dsimp only at hok
    rw [Except.ok.injEq] at hok
    exact Or.inr ⟨_, hok.symm⟩

theorem foldl_signed_abs_le :
    ∀ (l : List (List Bool × Nat)) (a : ℚ),
      |l.foldl
        (fun acc bc => acc + (-1 : ℚ) ^ countFalse bc.1 * (bc.2 : ℚ))
        a| ≤ |a| + (((l.map Prod.snd).sum : Nat) : ℚ)
  | [], a => by simp
  | (bs, k) :: t, a => by
    rw [List.foldl_cons]
    refine le_trans (foldl_signed_abs_le t _) ?_
    have h1 : |a + (-1 : ℚ) ^ countFalse bs * (k : ℚ)| ≤ |a| + k := by
      refine le_trans (abs_add _ _) ?_
      rw [abs_mul, abs_pow, abs_neg, abs_one, one_pow, one_mul,
        abs_of_nonneg (by positivity : (0 : ℚ) ≤ (k : ℚ))]
    rw [List.map_cons, List.sum_cons]
    push_cast
    linarith

end VQE

namespace VQE

/-- Claim C1: with equally long weight and Pauli lists, and every
per-term estimation succeeding, cost returns the weighted sum of the
per-term expectation values.  The summation body of cost is a student
exercise in the notebook and is modelled from the spec; the length
guard is source code. -/
theorem cost_weighted_sum (c : Circuit) (ws : List ℚ)
    (pls : List String) (es : List ℚ)
    (b : Circuit → Nat → List (List Bool × Nat)) (s : Nat)
    (hlen : ws.length = pls.length)
    (hes : List.Forall₂ (fun p e => expectation c p b s = .ok e) pls es) :
    cost c ws pls b s =
      .ok ((List.zipWith (fun w e => w * e) ws es).sum) := by
  unfold cost
  rw [if_neg (by simp [hlen]), costSum_spec c b s ws pls es 0 hes,
    zero_add]

/-- Witness for C1 at a concrete circuit, weights 2 and 3, identity
Pauli strings, and the deterministic backend. -/
theorem cost_weighted_sum_wit :
    cost base2 [2, 3] ["II", "II"] backend00 4 =
      .ok ((List.zipWith (fun w e => w * e) [2, 3]
        ([1, 1] : List ℚ)).sum) :=
  cost_weighted_sum base2 [2, 3] ["II", "II"] [1, 1] backend00 4 rfl
    (.cons (rfl : expectation base2 "II" backend00 4 = .ok 1)
      (.cons (rfl : expectation base2 "II" backend00 4 = .ok 1) .nil))

/-- Claim C2 (code bug): the cell-21 objective function evaluates
cost(VQE_circuit(0), weights, H2_paulis) for every theta, so the
variational parameter is ignored, although VQE_circuit 1 is a
different circuit from VQE_circuit 0. -/
theorem obj_ignores_theta :
    (∀ (theta : ℚ) (ws : List ℚ) (pls : List String)
        (b : Circuit → Nat → List (List Bool × Nat)) (s : Nat),
      obj theta ws pls b s = cost (VQE_circuit 0) ws pls b s) ∧
    decide ((((VQE_circuit 1).gates.map Gate.params)[4]?) =
      (((VQE_circuit 0).gates.map Gate.params)[4]?)) = false :=
  ⟨fun _ _ _ _ _ => rfl, by decide⟩

/-- Claim C7: cost raises the length-mismatch ValueError whenever the
weights and Pauli lists have different lengths, independently of the
backend, so no expectation is estimated. -/
theorem cost_mismatched_lengths (c : Circuit) (ws : List ℚ)
    (pls : List String) (b : Circuit → Nat → List (List Bool × Nat))
    (s : Nat) (h : ws.length ≠ pls.length) :
    cost c ws pls b s = .error .costLengthMismatch := by
  simp [cost, h]

/-- Witness for C7 with three weights and two Pauli strings. -/
theorem cost_mismatched_lengths_wit :
    cost base2 [1, 2, 3] ["ZZ", "II"] backend00 4 =
      .error .costLengthMismatch :=
  cost_mismatched_lengths base2 [1, 2, 3] ["ZZ", "II"] backend00 4
    (by decide)

/-- Claim C10: expectation never mutates the circuit object of the
caller: every gate and measurement of the source is appended to temp,
the copy, and on every return and error path the caller circuit is
unchanged. -/
theorem expectation_caller_unchanged (c : Circuit) (ps : String)
    (b : Circuit → Nat → List (List Bool × Nat)) (s : Nat) :
    (expectationSt c ps b s).caller = c := by
  unfold expectationSt
  dsimp only
  repeat' split
  all_goals rfl

end VQE

namespace VQE

theorem replicate_I_processed (n : Nat) :
    stripList
      ((String.mk (List.replicate n 'I')).toList.map Char.toUpper) =
      List.replicate n 'I' := by
  have h1 : (String.mk (List.replicate n 'I')).toList =
      List.replicate n 'I' := rfl
  rw [h1, List.map_replicate, show Char.toUpper 'I' = 'I' from rfl]
  exact stripList_eq_self _ (fun c hc => by
    rw [List.eq_of_mem_replicate hc]; rfl)

theorem enum_fst_lt_of_mem {α : Type} {l : List α} {ic : Nat × α}
    (hic : ic ∈ l.enum) : ic.1 < l.length := by
  have h2 := List.mem_enum_iff_getElem?.mp hic
  exact (List.getElem?_eq_some.mp h2).1

/-- Claim C4: on a circuit with one quantum and one classical register,
the all-identity Pauli string of the matching length makes expectation
return exactly 1, and the measurement backend is never invoked. -/
theorem expectation_all_identity (c : Circuit) (n m : Nat)
    (b : Circuit → Nat → List (List Bool × Nat)) (s : Nat)
    (hq : c.qregs = [n]) (hc : c.cregs = [m]) :
    (expectationSt c (String.mk (List.replicate n 'I')) b s).result =
      .ok 1 ∧
    (expectationSt c
      (String.mk (List.replicate n 'I')) b s).backendCalled = false := by
  have hmem : ∀ ic ∈ (List.replicate n 'I').enum, ic.2 = 'I' := by
    intro ic hic
    have h2 := List.mem_enum_iff_getElem?.mp hic
    obtain ⟨hlt, hval⟩ := List.getElem?_eq_some.mp h2
    rw [← hval, List.getElem_replicate]
  have hloop := pauliLoop_all_I n m (List.replicate n 'I').enum c [] hmem
  rw [List.enum_length, List.length_replicate, List.nil_append] at hloop
  have hall : (List.replicate n 1).all (fun i => i != 0) = true := by
    rw [List.all_eq_true]
    intro x hx
    rw [List.eq_of_mem_replicate hx]
    rfl
  have hres := expectationSt_identity c n m
    (String.mk (List.replicate n 'I')) b s (List.replicate n 'I') c
    (List.replicate n 1) hq hc (replicate_I_processed n)
    (List.length_replicate n 'I') hloop hall
  rw [hres]
  exact ⟨rfl, rfl⟩

/-- Witness for C4 on a bare 2-qubit circuit with 5 shots. -/
theorem expectation_all_identity_wit :
    (expectationSt base2
      (String.mk (List.replicate 2 'I')) backend00 5).result = .ok 1 ∧
    (expectationSt base2
      (String.mk (List.replicate 2 'I')) backend00 5).backendCalled =
      false :=
  expectation_all_identity base2 2 2 backend00 5 rfl rfl

/-- Claim C6 (amended): expectation raises the length-mismatch
ValueError whenever the length of the uppercased, whitespace-stripped
Pauli string differs from the qubit count; the original claim spoke of
the length of the raw string, which the counterexample below
refutes. -/
theorem expectation_trimmed_length_mismatch (c : Circuit) (n m : Nat)
    (ps : String) (b : Circuit → Nat → List (List Bool × Nat)) (s : Nat)
    (hq : c.qregs = [n]) (hc : c.cregs = [m])
    (hlen : (stripList (ps.toList.map Char.toUpper)).length ≠ n) :
    expectation c ps b s =
      .error (.lengthMismatch n
        (stripList (ps.toList.map Char.toUpper)).length) := by
  unfold expectation
  rw [expectationSt_badlen c n m ps b s hq hc hlen]

/-- Witness for the amended C6: a 1-character string on the 2-qubit
circuit. -/
theorem expectation_trimmed_length_mismatch_wit :
    expectation base2 "Z" backend00 4 =
      .error (.lengthMismatch 2
        (stripList ("Z".toList.map Char.toUpper)).length) :=
  expectation_trimmed_length_mismatch base2 2 2 "Z" backend00 4 rfl rfl
    (by decide)

/-- Counterexample to C6 as stated: the string with a leading blank
followed by ZZ has length 3, different from the qubit count 2 of the
circuit, yet expectation succeeds, because the source strips
whitespace before checking the length. -/
theorem length_mismatch_unstripped_cx :
    " ZZ".toList.length = 3 ∧ base2.qregs = [2] ∧ base2.cregs = [2] ∧
    expectation base2 " ZZ" backend00 4 = .ok 1 := by
  refine ⟨rfl, rfl, rfl, ?_⟩
  have h := expectationSt_run base2 2 2 " ZZ" backend00 4 ['Z', 'Z']
    ((base2.measure 0 0).measure 1 1) [0, 0] rfl rfl (by decide) rfl
    rfl rfl
  unfold expectation
  rw [h]
  show Except.ok _ = _
  norm_num [backend00, countFalse]

end VQE

namespace VQE

/-- Claim C5 (amended): on a circuit with one quantum register of n
qubits and one classical register of at least n bits, any string whose
uppercased, whitespace-stripped form has length n and still contains a
character outside I, X, Y, Z makes expectation raise the
invalid-symbol ValueError; the original claim, which tested the raw
characters, is refuted by the lowercase counterexample below. -/
theorem expectation_invalid_after_upper (c : Circuit) (n m : Nat)
    (ps : String) (b : Circuit → Nat → List (List Bool × Nat)) (s : Nat)
    (pl : List Char)
    (hq : c.qregs = [n]) (hc : c.cregs = [m]) (hnm : n ≤ m)
    (hpl : stripList (ps.toList.map Char.toUpper) = pl)
    (hlen : pl.length = n)
    (hbad : ∃ ch ∈ pl, isPauliChar ch = false) :
    ∃ ch, isPauliChar ch = false ∧
      expectation c ps b s = .error (.invalidSymbol ch) := by
  have hb1 : ∀ ic ∈ pl.enum, ic.1 < n := fun ic hic =>
    hlen ▸ enum_fst_lt_of_mem hic
  have hb2 : ∀ ic ∈ pl.enum, ic.1 < m := fun ic hic =>
    Nat.lt_of_lt_of_le (hb1 ic hic) hnm
  obtain ⟨ch, hch, hbadc⟩ := hbad
  obtain ⟨i, hi, hgi⟩ := List.mem_iff_getElem.mp hch
  have hen : (i, ch) ∈ pl.enum := by
    refine List.mem_enum_iff_getElem?.mpr ?_
    show pl[i]? = some ch
    rw [List.getElem?_eq_getElem hi, hgi]
  obtain ⟨ch2, hch2, hloop⟩ := pauliLoop_invalid n m pl.enum c [] hb1
    hb2 ⟨(i, ch), hen, hbadc⟩
  refine ⟨ch2, hch2, ?_⟩
  unfold expectation
  rw [expectationSt_loop_error c n m ps b s pl (.invalidSymbol ch2) hq
    hc hpl hlen hloop]

/-- Witness for the amended C5: the string ZQ on the 2-qubit circuit
raises the invalid-symbol error at Q. -/
theorem expectation_invalid_after_upper_wit :
    ∃ ch, isPauliChar ch = false ∧
      expectation base2 "ZQ" backend00 4 =
        .error (.invalidSymbol ch) :=
  expectation_invalid_after_upper base2 2 2 "ZQ" backend00 4 ['Z', 'Q']
    rfl rfl (by decide) (by decide) rfl ⟨'Q', by decide, by decide⟩

/-- Counterexample to C5 as stated: the lowercase string xz consists of
characters outside I, X, Y, Z and has the matching length 2, yet
expectation succeeds, because the source uppercases the string before
checking the symbols. -/
theorem invalid_symbol_lowercase_cx :
    isPauliChar 'x' = false ∧ "xz".toList.length = 2 ∧
    base2.qregs = [2] ∧
    expectation base2 "xz" backend00 4 = .ok 1 := by
  refine ⟨rfl, rfl, rfl, ?_⟩
  have h := expectationSt_run base2 2 2 "xz" backend00 4 ['X', 'Z']
    (((base2.h 0).measure 0 0).measure 1 1) [0, 0] rfl rfl (by decide)
    rfl rfl rfl
  unfold expectation
  rw [h]
  show Except.ok _ = _
  norm_num [backend00, countFalse]

/-- Claim C8: the outer sweep appends exactly one minimized energy per
radius, in radius order: the energies list has the same length as the
radii list and its r-th entry is the minimizer output on the objective
built from the coefficient row of radius r. -/
theorem sweep_one_energy_per_radius (radii : List ℚ)
    (coeffs : Nat → List ℚ) (paulis : List String)
    (minimizeFun : (ℚ → Except VQEError ℚ) → ℚ)
    (b : Circuit → Nat → List (List Bool × Nat)) (s : Nat) :
    (sweepEnergies radii coeffs paulis minimizeFun b s).length =
      radii.length ∧
    ∀ r : Nat, r < radii.length →
      (sweepEnergies radii coeffs paulis minimizeFun b s)[r]? =
        some (minimizeFun (fun theta =>
          cost (VQE_circuit theta) (coeffs r) paulis b s)) := by
  have he : sweepEnergies radii coeffs paulis minimizeFun b s =
      (List.range radii.length).map (fun r =>
        minimizeFun (fun theta =>
          cost (VQE_circuit theta) (coeffs r) paulis b s)) := by
    unfold sweepEnergies
    rw [foldl_append_singleton_eq_map]
    rfl
  constructor
  · rw [he, List.length_map, List.length_range]
  · intro r hr
    rw [he, List.getElem?_map, List.getElem?_range hr]
    rfl

/-- Witness for C8 with two radii and the constant minimizer. -/
theorem sweep_one_energy_per_radius_wit :
    (sweepEnergies [1, 2] (fun _ => []) [] constMin backend00 1).length
      = 2 ∧
    (sweepEnergies [1, 2] (fun _ => []) [] constMin backend00 1)[0]? =
      some (constMin (fun theta =>
        cost (VQE_circuit theta) ((fun _ => ([] : List ℚ)) 0) []
          backend00 1)) :=
  ⟨(sweep_one_energy_per_radius [1, 2] (fun _ => []) [] constMin
      backend00 1).1,
    (sweep_one_energy_per_radius [1, 2] (fun _ => []) [] constMin
      backend00 1).2 0 (by decide)⟩

/-- Claim C9: whenever the backend returns counts summing to the shot
count, the shot count is positive, and expectation returns a value,
that value lies between -1 and 1. -/
theorem expectation_in_unit_interval (c : Circuit) (ps : String)
    (b : Circuit → Nat → List (List Bool × Nat)) (s : Nat) (v : ℚ)
    (hsum : ∀ c2 s2, ((b c2 s2).map Prod.snd).sum = s2)
    (hs : 0 < s) (hok : expectation c ps b s = .ok v) :
    -1 ≤ v ∧ v ≤ 1 := by
  rcases expectation_ok_cases c ps b s v hok with h | ⟨t2, h⟩
  · rw [h]
    norm_num
  · have hb := foldl_signed_abs_le (b t2 s) 0
    rw [abs_zero, zero_add, hsum t2 s] at hb
    have hspos : (0 : ℚ) < (s : ℚ) := by exact_mod_cast hs
    have habs : |v| ≤ 1 := by
      rw [h, abs_div, abs_of_nonneg (le_of_lt hspos)]
      exact (div_le_one hspos).mpr hb
    exact abs_le.mp habs

/-- Witness for C9: the identity string on the 2-qubit circuit with
the deterministic backend, whose counts sum to the shot count. -/
theorem expectation_in_unit_interval_wit :
    -1 ≤ (1 : ℚ) ∧ (1 : ℚ) ≤ 1 :=
  expectation_in_unit_interval base2 "II" backend00 4 1
    (fun c2 s2 => by simp [backend00]) (by decide) rfl

end VQE

namespace VQE

theorem countFalse_eq_card (bs : List Bool) :
    countFalse bs = ((Finset.range bs.length).filter
      (fun j => bs.getD j true = false)).card := by
  induction bs using List.reverseRecOn with
  | nil => simp [countFalse]
  | append_singleton t b ih =>
    have hQn : ((t ++ [b]).getD t.length true = false) ↔ (b = false) := by
      rw [List.getD_eq_getElem?_getD,
        List.getElem?_append_right (Nat.le_refl _)]
      simp
    have hQj : ∀ j ∈ Finset.range t.length,
        ((t ++ [b]).getD j true = false) ↔ (t.getD j true = false) := by
      intro j hj
      rw [Finset.mem_range] at hj
      rw [List.getD_eq_getElem?_getD, List.getD_eq_getElem?_getD,
        List.getElem?_append_left hj]
    have hnotmem : t.length ∉ (Finset.range t.length).filter
        (fun j => (t ++ [b]).getD j true = false) := by
      intro hmem
      have := Finset.mem_of_mem_filter _ hmem
      simp at this
    have hlen : (t ++ [b]).length = t.length + 1 := by simp
    rw [countFalse, List.countP_append, List.countP_singleton, hlen,
      Finset.range_succ, Finset.filter_insert]
    rw [Finset.filter_congr hQj]
    cases b with
    | false =>
      rw [if_pos (hQn.mpr rfl), Finset.card_insert_of_not_mem
        (fun hmem => hnotmem (by
          rw [Finset.mem_filter] at hmem ⊢
          exact ⟨hmem.1, (hQj _ hmem.1).mpr hmem.2⟩))]
      rw [← countFalse, ih]
      simp
    | true =>
      rw [if_neg (show ¬ ((t ++ [true]).getD t.length true = false) from
        fun h => Bool.noConfusion (hQn.mp h))]
      rw [← countFalse, ih]
      simp

end VQE

namespace VQE

theorem filter_mem_toFinset (mp : List Nat) (m : Nat)
    (hlt : ∀ j ∈ mp, j < m) :
    (Finset.range m).filter (fun j => j ∈ mp) = mp.toFinset := by
  ext j
  simp only [Finset.mem_filter, Finset.mem_range, List.mem_toFinset]
  exact ⟨fun h => h.2, fun h => ⟨hlt j h, h⟩⟩

theorem countFalse_split (bs : List Bool) (mp : List Nat) (m : Nat)
    (hblen : bs.length = m) (hnd : mp.Nodup)
    (hlt : ∀ j ∈ mp, j < m)
    (hout : ∀ j, j < m → j ∉ mp → bs.getD j true = false) :
    countFalse bs = countZerosAt mp bs + (m - mp.length) := by
  classical
  have hA := countFalse_eq_card bs
  rw [hblen] at hA
  set P : Nat → Prop := fun j => bs.getD j true = false with hP
  have hsplit : (((Finset.range m).filter P).filter
        (fun j => j ∈ mp)).card +
      (((Finset.range m).filter P).filter (fun j => ¬ j ∈ mp)).card =
      ((Finset.range m).filter P).card :=
    Finset.filter_card_add_filter_neg_card_eq_card (fun j => j ∈ mp)
  have h1 : ((Finset.range m).filter P).filter (fun j => j ∈ mp) =
      mp.toFinset.filter P := by
    rw [Finset.filter_filter]
    ext j
    simp only [Finset.mem_filter, Finset.mem_range, List.mem_toFinset]
    exact ⟨fun h => ⟨h.2.2, h.2.1⟩, fun h => ⟨hlt j h.1, h.2, h.1⟩⟩
  have h1card : (mp.toFinset.filter P).card = countZerosAt mp bs := by
    have he : mp.toFinset.filter P =
        (mp.filter (fun j => bs.getD j true == false)).toFinset := by
      rw [List.toFinset_filter]
      exact Finset.filter_congr (fun x _ => by simp [hP])
    rw [he, List.toFinset_card_of_nodup (hnd.filter _)]
    rfl
  have h2 : ((Finset.range m).filter P).filter (fun j => ¬ j ∈ mp) =
      (Finset.range m).filter (fun j => ¬ j ∈ mp) := by
    rw [Finset.filter_filter]
    refine Finset.filter_congr (fun j hj => ?_)
    rw [Finset.mem_range] at hj
    exact ⟨fun h => h.2, fun h => ⟨hout j hj h, h⟩⟩
  have h2card : ((Finset.range m).filter (fun j => ¬ j ∈ mp)).card =
      m - mp.length := by
    have hsum2 : ((Finset.range m).filter (fun j => j ∈ mp)).card +
        ((Finset.range m).filter (fun j => ¬ j ∈ mp)).card = m := by
      rw [Finset.filter_card_add_filter_neg_card_eq_card
        (fun j => j ∈ mp), Finset.card_range]
    rw [filter_mem_toFinset mp m hlt,
      List.toFinset_card_of_nodup hnd] at hsum2
    omega
  rw [hA, ← hsplit, h1, h1card, h2, h2card]

end VQE

namespace VQE

theorem enum_map_fst_range {α : Type} (l : List α) :
    l.enum.map Prod.fst = List.range l.length := by
  rw [show l.enum = l.enumFrom 0 from rfl, List.enumFrom_map_fst,
    ← List.range_eq_range']

theorem measuredPositions_sublist (pl : List Char) :
    List.Sublist (measuredPositions pl) (List.range pl.length) := by
  have h1 : List.Sublist (pl.enum.filter (fun ic => ic.2 != 'I'))
      pl.enum := List.filter_sublist _
  have h2 := h1.map Prod.fst
  rw [enum_map_fst_range] at h2
  exact h2

theorem measuredPositions_nodup (pl : List Char) :
    (measuredPositions pl).Nodup :=
  List.Nodup.sublist (measuredPositions_sublist pl)
    (List.nodup_range pl.length)

theorem measuredPositions_lt (pl : List Char) :
    ∀ j ∈ measuredPositions pl, j < pl.length := fun _ hj =>
  List.mem_range.mp ((measuredPositions_sublist pl).subset hj)

theorem foldl_add_map (g : List Bool × Nat → ℚ) :
    ∀ (l : List (List Bool × Nat)) (a : ℚ),
      l.foldl (fun acc bc => acc + g bc) a = a + (l.map g).sum
  | [], a => by simp
  | bc :: t, a => by
    rw [List.foldl_cons, foldl_add_map g t, List.map_cons,
      List.sum_cons, add_assoc]

theorem ident_not_all (pl : List Char) (hne : ∃ ch ∈ pl, ch ≠ 'I') :
    (pl.enum.map (fun ic => if ic.2 = 'I' then (1 : Nat) else 0)).all
      (fun i => i != 0) = false := by
  rw [List.all_eq_false]
  obtain ⟨ch, hch, hne2⟩ := hne
  obtain ⟨i, hi, hgi⟩ := List.mem_iff_getElem.mp hch
  refine ⟨0, ?_, by decide⟩
  rw [List.mem_map]
  refine ⟨(i, ch), ?_, by simp [hne2]⟩
  refine List.mem_enum_iff_getElem?.mpr ?_
  show pl[i]? = some ch
  rw [List.getElem?_eq_getElem hi, hgi]

/-- Claim C3 (amended): for a valid Pauli string with at least one
non-identity symbol, expectation is the empirical average of parity
signs computed over the FULL classical bitstring; since the backend
reports 0 at every unmeasured position, this equals (-1) to the number
of unmeasured classical bits times the average of the signs restricted
to the measured positions.  The original claim, that the sign is the
restricted parity itself and unmeasured bits cannot affect it, is
refuted by the counterexample. -/
theorem expectation_full_string_parity (c : Circuit) (n m : Nat)
    (ps : String) (b : Circuit → Nat → List (List Bool × Nat)) (s : Nat)
    (pl : List Char)
    (hq : c.qregs = [n]) (hc : c.cregs = [m]) (hnm : n ≤ m)
    (hpl : stripList (ps.toList.map Char.toUpper) = pl)
    (hlen : pl.length = n)
    (hvalid : ∀ ch ∈ pl, isPauliChar ch = true)
    (hsome : ∃ ch ∈ pl, ch ≠ 'I')
    (hbs : ∀ c2 s2, ∀ bc ∈ b c2 s2, bc.1.length = m ∧
      ∀ j, j < m → j ∉ measuredPositions pl →
        bc.1.getD j true = false) :
    ∃ temp2, expectation c ps b s =
      .ok ((-1 : ℚ) ^ (m - (measuredPositions pl).length) *
        restrictedAverage (measuredPositions pl) (b temp2 s) s) := by
  have hb1 : ∀ ic ∈ pl.enum, ic.1 < n := fun ic hic =>
    hlen ▸ enum_fst_lt_of_mem hic
  have hb2 : ∀ ic ∈ pl.enum, ic.1 < m := fun ic hic =>
    Nat.lt_of_lt_of_le (hb1 ic hic) hnm
  have hv : ∀ ic ∈ pl.enum, isPauliChar ic.2 = true := fun ic hic =>
    hvalid ic.2 (List.getElem?_mem (List.mem_enum_iff_getElem?.mp hic))
  obtain ⟨temp2, hloop⟩ := pauliLoop_valid n m pl.enum c [] hv hb1 hb2
  rw [List.nil_append] at hloop
  have hna := ident_not_all pl hsome
  have hrun := expectationSt_run c n m ps b s pl temp2
    (pl.enum.map (fun ic => if ic.2 = 'I' then (1 : Nat) else 0))
    hq hc hpl hlen hloop hna
  refine ⟨temp2, ?_⟩
  unfold expectation
  rw [hrun]
  show Except.ok _ = Except.ok _
  rw [Except.ok.injEq]
  have hsign : ∀ bc ∈ b temp2 s,
      (-1 : ℚ) ^ countFalse bc.1 * (bc.2 : ℚ) =
      (-1 : ℚ) ^ (m - (measuredPositions pl).length) *
        (restrictedSign (measuredPositions pl) bc.1 * (bc.2 : ℚ)) := by
    intro bc hbc
    obtain ⟨hblen, hout⟩ := hbs temp2 s bc hbc
    rw [restrictedSign, countFalse_split bc.1 (measuredPositions pl) m
      hblen (measuredPositions_nodup pl)
      (fun j hj =>
        Nat.lt_of_lt_of_le (hlen ▸ measuredPositions_lt pl j hj) hnm)
      hout]
    rw [pow_add]
    ring
  rw [foldl_add_map
    (fun bc => (-1 : ℚ) ^ countFalse bc.1 * (bc.2 : ℚ)), zero_add]
  unfold restrictedAverage
  rw [foldl_add_map
    (fun bc => restrictedSign (measuredPositions pl) bc.1 *
      (bc.2 : ℚ)), zero_add]
  rw [List.map_congr_left hsign, List.sum_map_mul_left, mul_div_assoc]

end VQE

namespace VQE

/-- Counterexample to C3 as stated: for the Pauli string ZI on a
2-qubit circuit, with every shot observing the bitstring 00,
expectation returns 1, while the empirical average of parity signs of
the bitstrings restricted to the measured (non-identity) positions is
-1: the always-0 bit recorded at the unmeasured identity position is
counted by the source and flips the sign of every outcome. -/
theorem restricted_parity_cx :
    stripList ("ZI".toList.map Char.toUpper) = ['Z', 'I'] ∧
    measuredPositions ['Z', 'I'] = [0] ∧
    expectation base2 "ZI" backend00 100 = .ok 1 ∧
    restrictedAverage [0] (backend00 base2 100) 100 = -1 ∧
    decide ((1 : ℚ) = -1) = false := by
  refine ⟨by decide, by decide, ?_, ?_, by decide⟩
  · have h := expectationSt_run base2 2 2 "ZI" backend00 100 ['Z', 'I']
      (base2.measure 0 0) [0, 1] rfl rfl (by decide) rfl rfl rfl
    unfold expectation
    rw [h]
    show Except.ok _ = _
    norm_num [backend00, countFalse]
  · have hz : countZerosAt [0] [false, false] = 1 := by decide
    unfold restrictedAverage restrictedSign
    norm_num [backend00, hz]

/-- Witness for the amended C3: the string ZI on the 2-qubit circuit
with the deterministic backend. -/
theorem expectation_full_string_parity_wit :
    ∃ temp2, expectation base2 "ZI" backend00 4 =
      .ok ((-1 : ℚ) ^ (2 - (measuredPositions ['Z', 'I']).length) *
        restrictedAverage (measuredPositions ['Z', 'I'])
          (backend00 temp2 4) 4) :=
  expectation_full_string_parity base2 2 2 "ZI" backend00 4 ['Z', 'I']
    rfl rfl (by decide) (by decide) rfl (by decide) (by decide)
    (by
      intro c2 s2 bc hbc
      simp only [backend00, List.mem_cons, List.not_mem_nil,
        or_false] at hbc
      subst hbc
      refine ⟨rfl, ?_⟩
      show ∀ j, j < 2 → j ∉ measuredPositions ['Z', 'I'] →
        [false, false].getD j true = false
      decide)

end VQE
